import Mathlib

/-!
Verification development for the SOL-file viewer (`src/app.rs`).

The renderer `process_element`, the per-frame message drain in `App::update`,
and the central-panel rendering are shallowly embedded below.  Rust strings
are modelled as lists of characters (`Str`); `String::len` (UTF-8 byte
length) is `utf8Len`, and the char-indexed `substring` crate operation is
`rustSubstring`.  Values that the renderer only passes through (f64, i32)
are carried as wrapper structures.  Code that can panic (`unwrap`, file
open, decode) is modelled in the `Option` monad, `none` standing for a
panic of the process.
-/

set_option maxHeartbeats 1000000

namespace SolEditor

/-- Characters of a Rust `String` / `&str`. -/
abbrev Str := List Char

/-- Rust `String::len`: the UTF-8 byte length of the string. -/
def utf8Len (s : Str) : Nat := (s.map Char.utf8Size).sum

/-- The `substring` crate's `substring(start, stop)`: char-indexed
slicing, clamped to the available characters, empty when `stop ≤ start`. -/
def rustSubstring (s : Str) (start stop : Nat) : Str :=
  (s.drop start).take (stop - start)

/-- An `f64` payload; the viewer never computes with it, only displays it. -/
structure F64 where
  bits : Nat
deriving DecidableEq, Repr

/-- An `i32` payload; the viewer never computes with it, only displays it. -/
structure I32 where
  val : Int
deriving DecidableEq, Repr

/-- `flash_lso::types::AMFVersion`. -/
inductive AMFVersion where
  | AMF0
  | AMF3
deriving DecidableEq, Repr

/-- `flash_lso::types::Header`. -/
structure Header where
  length : Nat
  name : Str
  format_version : AMFVersion
deriving DecidableEq, Repr

/-- `flash_lso::types::ClassDefinition` (name + ordered static property names). -/
structure ClassDefinition where
  name : Str
  static_properties : List Str
deriving DecidableEq, Repr

mutual
/-- `flash_lso::types::Value`: the decoder's tagged union (spec §3 and the
variants named in `process_element`'s match arms and comments).  `Rc<Value>`
is modelled as `Value`. -/
inductive Value where
  | Number (n : F64)
  | Bool (b : Bool)
  | String (s : Str)
  | Object (children : List Element) (class_definition : Option ClassDefinition)
  | Null
  | Undefined
  | ECMAArray (dense : List Value) (assoc : List Element) (len : Nat)
  | StrictArray (vals : List Value)
  | Date (time : F64) (tz : Option Nat)
  | Unsupported
  | XML (content : Str) (flag : Bool)
  | AMF3 (v : Value)
  | Integer (i : I32)
  | ByteArray (bytes : List Nat)
  | VectorInt (v : List I32) (fixed : Bool)
  | VectorUInt (v : List Nat) (fixed : Bool)
  | VectorDouble (v : List F64) (fixed : Bool)
  | VectorObject (v : List Value) (typeName : Str) (fixed : Bool)
  | Dictionary (entries : List (Value × Value)) (weak : Bool)
  | Custom (elems : List Element) (standard : List Element)
      (class_definition : Option ClassDefinition)

/-- `flash_lso::types::Element`: a named value. -/
inductive Element where
  | mk (name : Str) (value : Value)
end

/-- The element's name. -/
def Element.name : Element → Str
  | .mk n _ => n

/-- The element's value (`element.value()` in the source). -/
def Element.value : Element → Value
  | .mk _ v => v

/-- `flash_lso::types::Lso`: header plus body. -/
structure Lso where
  header : Header
  body : List Element

/-! ### Rendered output

A call into the GUI toolkit is recorded as one `RItem`.  `ui.horizontal`
closures are flattened between `hBegin`/`hEnd` markers; `ui.add_space(10.0)`
and `ui.add_space(20.0)` are recorded as `space 10` / `space 20`. -/

/-- The payload handed to `ui.code`. -/
inductive CodeArg where
  | num (n : F64)
  | bool (b : Bool)
  | str (s : Str)
  | int (i : I32)
  | ver (v : AMFVersion)
  | nat (n : Nat)
deriving DecidableEq, Repr

/-- One recorded GUI call. -/
inductive RItem where
  | label (s : Str)
  | code (c : CodeArg)
  | space (n : Nat)
  | hBegin
  | hEnd
  | heading (s : Str)
  | textEdit (s : Str)
deriving DecidableEq, Repr

/-! ### String literals of `process_element` and the central panel -/

/-- `"Couldn't find type."` (the fallback text). -/
def couldntFindStr : Str := "Couldn\x27t find type.".toList

/-- `"No Class Definition Found!"`. -/
def noClassDefStr : Str := "No Class Definition Found!".toList

/-- `"Class Definition: \"\""` (label used when the class name is empty). -/
def classDefEmptyLbl : Str := "Class Definition: \"\"".toList

/-- `"Class Definition: "`. -/
def classDefLbl : Str := "Class Definition: ".toList

/-- `"Static Properties: "`. -/
def staticPropsLbl : Str := "Static Properties: ".toList

/-- `"null"`. -/
def nullStr : Str := "null".toList

/-- `"undefined"`. -/
def undefinedStr : Str := "undefined".toList

/-- `"unsupported"`. -/
def unsupportedStr : Str := "unsupported".toList

/-- The static-properties string of `process_element` (app.rs lines
213-228): start from `"["`, append `"\"" + p + "\", "` for each property in
order, measure the byte length, and when it is not 1 cut with the
char-indexed `substring(0, len - 2)`; finally append `"]"`. -/
def buildStaticProps (props : List Str) : Str :=
  let s :=
    props.foldl (fun acc p => acc ++ ('\x22' :: p ++ ['\x22', ',', ' '])) ['[']
  let len := utf8Len s
  let s2 := if len ≠ 1 then rustSubstring s 0 (len - 2) else s
  s2 ++ [']']

/-! ### The tree renderer `process_element` (app.rs lines 176-285)

The function records the GUI calls it makes, in order, and returns `none`
exactly where the Rust code would panic: the child indexing
`list_of_elements[i]` is modelled with `List.get?`, and the
`class_definition.as_ref().unwrap()` behind the `is_some` guard is a match
whose `none` arm fails. -/

mutual

/-- `process_element(ui, amf0, element)`.  First the element's name label;
then the first (common) match, which sets `no_value` on its catch-all arm
while also emitting the fallback text; then the early return when
`amf0 && no_value`; then the second (version-specific) match setting
`no_value2`; finally the fallback when `!amf0 && no_value && no_value2`. -/
def processElement (amf0 : Bool) : Element → Option (List RItem)
  | .mk name value =>
    let passOne : Option (List RItem × Bool) :=
      match value with
      | .Number n => some ([.code (.num n)], false)
      | .Bool b => some ([.code (.bool b)], false)
      | .String s => some ([.code (.str s)], false)
      | .Object children cd =>
        match processChildrenFrom amf0 children 0 with
        | none => none
        | some kids =>
          if cd.isSome then
            match cd with
            | none => none
            | some c =>
              some (kids ++
                [.hBegin, .space 10,
                 .label (if c.name.isEmpty then classDefEmptyLbl else classDefLbl),
                 .code (.str c.name), .hEnd,
                 .hBegin, .space 20, .label staticPropsLbl,
                 .code (.str (buildStaticProps c.static_properties)), .hEnd], false)
          else
            some (kids ++ [.code (.str noClassDefStr)], false)
      | .Null => some ([.hBegin, .code (.str nullStr), .hEnd], false)
      | .Undefined => some ([.code (.str undefinedStr)], false)
      | .Unsupported => some ([.code (.str unsupportedStr)], false)
      | .XML s b => some ([.hBegin, .code (.str s), .code (.bool b), .hEnd], false)
      | _ => some ([.code (.str couldntFindStr)], true)
    match passOne with
    | none => none
    | some (out1, no_value) =>
      if amf0 && no_value then
        some (.label name :: out1)
      else
        let p2 : List RItem × Bool :=
          match value with
          | .Integer i => ([.code (.int i)], false)
          | _ => ([], true)
        let fin :=
          if !amf0 && no_value && p2.2 then [RItem.code (.str couldntFindStr)] else []
        some (.label name :: out1 ++ p2.1 ++ fin)
termination_by e => (sizeOf e, 0)
decreasing_by
  apply Prod.Lex.left
  simp
  omega

/-- The child loop `for i in 0..list_of_elements.len()` of the `Object` arm:
each iteration opens a horizontal group, adds a 10-point space, fetches
`list_of_elements[i]`, labels the child's name and recurses into it. -/
def processChildrenFrom (amf0 : Bool) (l : List Element) (i : Nat) :
    Option (List RItem) :=
  if h : i < l.length then
    match hm : l.get? i with
    | none => none
    | some e1 =>
      match processElement amf0 e1 with
      | none => none
      | some sub =>
        match processChildrenFrom amf0 l (i + 1) with
        | none => none
        | some rest =>
          some (.hBegin :: .space 10 :: .label e1.name :: sub ++ .hEnd :: rest)
  else
    some []
termination_by (sizeOf l, l.length - i)
decreasing_by
  · apply Prod.Lex.left
    have hmem : e1 ∈ l := List.get?_mem hm
    exact List.sizeOf_lt_of_mem hmem
  · apply Prod.Lex.right
    omega

end

/-! ### The App Loop (`App::update`, app.rs lines 39-131) -/

/-- `Message` (app.rs lines 9-12). -/
inductive Message where
  | FileOpen (path : Str)
deriving DecidableEq, Repr

/-- File contents as raw bytes. -/
abbrev Bytes := List Nat

/-- Handling one drained message (app.rs lines 47-53): `File::open(path)`
(panics via `unwrap` when the file cannot be opened — `openRead` returns
`none`), `read_to_end` into a buffer (its `Result` is discarded by the
source, so `openRead` directly yields the bytes read), then
`Reader::default().parse(&data)` (panics via `unwrap` on decode failure —
`parse` returns `none`); the document is the second component of the parse
result. -/
def msgDecodes (openRead : Str → Option Bytes) (parse : Bytes → Option (Bytes × Lso)) :
    Message → Option Lso
  | .FileOpen p =>
    match openRead p with
    | none => none
    | some data =>
      match parse data with
      | none => none
      | some reader => some reader.2

/-- The per-frame drain loop (app.rs lines 44-62): `try_recv` in a loop
until the channel is empty; the queue is FIFO, so the loop consumes the
front message first.  Each successfully decoded document overwrites the
held one by a single assignment (`self.lso = reader.1`); a panic while
handling a message is `none`. -/
def drainMessages (openRead : Str → Option Bytes)
    (parse : Bytes → Option (Bytes × Lso)) :
    List Message → Lso → Option Lso
  | [], s => some s
  | m :: rest, _s =>
    match msgDecodes openRead parse m with
    | none => none
    | some doc => drainMessages openRead parse rest doc

/-- `"Header"`. -/
def headingHeaderStr : Str := "Header".toList

/-- `"Name:"`. -/
def nameLabelStr : Str := "Name:".toList

/-- `"SOL/AMF Version:"`. -/
def versionLabelStr : Str := "SOL/AMF Version:".toList

/-- `"Length:"`. -/
def lengthLabelStr : Str := "Length:".toList

/-- `"Body"`. -/
def headingBodyStr : Str := "Body".toList

/-- `"No SOL file loaded."`. -/
def noFileStr : Str := "No SOL file loaded.".toList

/-- The body loop `for element in body { process_element(ui, amf0, element) }`
(app.rs lines 123-125).  `process_element` is total (proved below), so its
output is read off with `getD`. -/
def bodyRender (amf0 : Bool) : List Element → List RItem
  | [] => []
  | e :: rest => (processElement amf0 e).getD [] ++ bodyRender amf0 rest

/-- The central panel (app.rs lines 97-131): when `header.length != 0`,
the header heading, the name/version/length rows, the body heading and the
body loop with `amf0 := format_version == AMFVersion::AMF0`; otherwise the
"No SOL file loaded." heading.  (`warn_if_debug_build` renders only in
debug builds and is not recorded.) -/
def renderCentral (l : Lso) : List RItem :=
  if l.header.length ≠ 0 then
    [.heading headingHeaderStr,
     .hBegin, .label nameLabelStr, .textEdit l.header.name, .hEnd,
     .hBegin, .label versionLabelStr, .code (.ver l.header.format_version), .hEnd,
     .hBegin, .label lengthLabelStr, .code (.nat l.header.length), .hEnd,
     .heading headingBodyStr] ++
    bodyRender (l.header.format_version == AMFVersion.AMF0) l.body
  else
    [.heading noFileStr]

/-- One frame of `App::update`: drain the queued messages, then render the
central panel from the (possibly replaced) held document.  `none` is a
panic while handling a message. -/
def appUpdate (openRead : Str → Option Bytes)
    (parse : Bytes → Option (Bytes × Lso))
    (queue : List Message) (s : Lso) : Option (Lso × List RItem) :=
  match drainMessages openRead parse queue s with
  | none => none
  | some s2 => some (s2, renderCentral s2)

/-- The group of GUI calls one child contributes to its parent `Object`:
a horizontal group holding a 10-point indent, the child's name label, and
the recursive rendering of the child. -/
def childBlock (amf0 : Bool) (c : Element) : List RItem :=
  .hBegin :: .space 10 :: .label c.name :: ((processElement amf0 c).getD [] ++ [.hEnd])

/-- The concatenated child groups, one per child, in list order. -/
def childBlocks (amf0 : Bool) : List Element → List RItem
  | [] => []
  | c :: cs => childBlock amf0 c ++ childBlocks amf0 cs

/-- The class-definition block of the `Object` arm (app.rs lines 199-237):
either the class-name row and the static-properties row, or the
"No Class Definition Found!" code text. -/
def classDefOut : Option ClassDefinition → List RItem
  | some c =>
    [.hBegin, .space 10,
     .label (if c.name.isEmpty then classDefEmptyLbl else classDefLbl),
     .code (.str c.name), .hEnd,
     .hBegin, .space 20, .label staticPropsLbl,
     .code (.str (buildStaticProps c.static_properties)), .hEnd]
  | none => [.code (.str noClassDefStr)]

/-! ### Spec-side definitions and variant predicates -/

/-- The `Value` variants the claims call version-invariant scalars:
Number, Bool, String, Null, Undefined, XML and Unsupported. -/
def isVersionInvariantScalar : Value → Bool
  | .Number _ => true
  | .Bool _ => true
  | .String _ => true
  | .Null => true
  | .Undefined => true
  | .XML _ _ => true
  | .Unsupported => true
  | _ => false

/-- The variants handled by the renderer's common (first) pass: the seven
scalars above plus `Object`. -/
def isCommonHandled : Value → Bool
  | .Number _ => true
  | .Bool _ => true
  | .String _ => true
  | .Object _ _ => true
  | .Null => true
  | .Undefined => true
  | .Unsupported => true
  | .XML _ _ => true
  | _ => false

/-- Following the spec's words: the static-properties list as a bracketed,
double-quoted, comma-space-separated list with no trailing separator; the
empty list is `[]`. -/
def specJoin : List Str → Str
  | [] => []
  | [p] => '\x22' :: p ++ ['\x22']
  | p :: rest => '\x22' :: p ++ ['\x22', ',', ' '] ++ specJoin rest

/-- Following the spec's words: `["p1", "p2", ..., "pN"]`, and `[]` when
there are no properties. -/
def specStaticPropsList (props : List Str) : Str :=
  '[' :: specJoin props ++ [']']

/-- The piece the property loop appends for one property. -/
def quotedSeg (p : Str) : Str := '\x22' :: p ++ ['\x22', ',', ' ']

/-- The initial held document of `App::default` (app.rs lines 23-34):
placeholder header with length 0 and an empty body. -/
def defaultLso : Lso := ⟨⟨0, "Not Loaded".toList, .AMF0⟩, []⟩

/-- A sample decoded document, used to instantiate the app-loop theorems. -/
def sampleDoc : Lso := ⟨⟨12, "test".toList, .AMF3⟩, [.mk ['x'] (.Integer ⟨5⟩)]⟩

/-- A file environment where every open/read succeeds. -/
def openReadW : Str → Option Bytes := fun _ => some []

/-- A file environment where every open fails. -/
def openReadFail : Str → Option Bytes := fun _ => none

/-- A decoder that decodes everything to `sampleDoc`. -/
def parseW : Bytes → Option (Bytes × Lso) := fun _ => some ([], sampleDoc)

/-- A decoder that rejects everything. -/
def parseFail : Bytes → Option (Bytes × Lso) := fun _ => none

/-! ### Helper lemmas -/

/-- Past the end of the list, the child loop stops. -/
lemma pCF_stop (amf0 : Bool) (l : List Element) (i : Nat) (h : ¬ i < l.length) :
    processChildrenFrom amf0 l i = some [] := by
  rw [processChildrenFrom]
  simp [h]

/-- One iteration of the child loop. -/
lemma pCF_step (amf0 : Bool) (l : List Element) (i : Nat) (e1 : Element)
    (h : i < l.length) (hm : l.get? i = some e1) :
    processChildrenFrom amf0 l i =
      match processElement amf0 e1 with
      | none => none
      | some sub =>
        match processChildrenFrom amf0 l (i + 1) with
        | none => none
        | some rest =>
          some (.hBegin :: .space 10 :: .label e1.name :: sub ++ .hEnd :: rest) := by
  rw [processChildrenFrom]
  rw [dif_pos h]
  split
  · simp_all
  · rename_i e2 hm2
    rw [hm] at hm2
    cases hm2
    rfl

/-- Joint totality of the renderer and its child loop, by strong induction
on the size of the element / list. -/
lemma total_all : ∀ n : Nat,
    (∀ (e : Element), sizeOf e ≤ n → ∀ amf0, (processElement amf0 e).isSome) ∧
    (∀ (l : List Element), sizeOf l ≤ n →
      ∀ amf0 i, (processChildrenFrom amf0 l i).isSome) := by
  intro n
  induction n using Nat.strong_induction_on with
  | _ n IH =>
    have hB : ∀ (l : List Element), sizeOf l ≤ n →
        ∀ amf0 i, (processChildrenFrom amf0 l i).isSome := by
      intro l hl amf0 i
      suffices hs : ∀ k i, l.length - i ≤ k → (processChildrenFrom amf0 l i).isSome by
        exact hs _ i le_rfl
      intro k
      induction k with
      | zero =>
        intro i hi
        rw [pCF_stop amf0 l i (by omega)]
        rfl
      | succ k IHk =>
        intro i hi
        by_cases hlt : i < l.length
        · have hget : l.get? i = some l[i] := by
            rw [List.get?_eq_getElem?]
            exact List.getElem?_eq_getElem hlt
          have hmem : l[i] ∈ l := List.get?_mem hget
          have hsz : sizeOf (l[i]) < n :=
            lt_of_lt_of_le (List.sizeOf_lt_of_mem hmem) hl
          have hA : (processElement amf0 l[i]).isSome :=
            (IH (sizeOf (l[i])) hsz).1 _ le_rfl amf0
          have hrest : (processChildrenFrom amf0 l (i + 1)).isSome :=
            IHk (i + 1) (by omega)
          rw [pCF_step amf0 l i _ hlt hget]
          obtain ⟨sub, hsub⟩ := Option.isSome_iff_exists.mp hA
          obtain ⟨rest, hr⟩ := Option.isSome_iff_exists.mp hrest
          rw [hsub, hr]
          rfl
        · rw [pCF_stop amf0 l i hlt]
          rfl
    refine ⟨?_, hB⟩
    intro e he amf0
    cases e with
    | mk name value =>
      cases value with
      | Object children cd =>
        have hch : sizeOf children ≤ n := by
          have : sizeOf children < sizeOf (Element.mk name (.Object children cd)) := by
            simp
            omega
          omega
        have hkids := hB children hch amf0 0
        obtain ⟨kids, hkids⟩ := Option.isSome_iff_exists.mp hkids
        cases cd with
        | none => simp [processElement, hkids]
        | some c => simp [processElement, hkids]
      | _ => cases amf0 <;> simp [processElement]

/-- `process_element` is total: it never panics. -/
lemma processElement_total (amf0 : Bool) (e : Element) :
    (processElement amf0 e).isSome :=
  (total_all (sizeOf e)).1 e le_rfl amf0


/-- The child loop renders exactly the blocks of the children from index
`i` on, in order. -/
lemma pCF_drop (amf0 : Bool) (l : List Element) :
    ∀ k i, l.length - i ≤ k →
      processChildrenFrom amf0 l i = some (childBlocks amf0 (l.drop i)) := by
  intro k
  induction k with
  | zero =>
    intro i hi
    rw [pCF_stop amf0 l i (by omega), List.drop_eq_nil_of_le (by omega)]
    rfl
  | succ k IHk =>
    intro i hi
    by_cases hlt : i < l.length
    · have hget : l.get? i = some l[i] := by
        rw [List.get?_eq_getElem?]
        exact List.getElem?_eq_getElem hlt
      obtain ⟨sub, hsub⟩ :=
        Option.isSome_iff_exists.mp (processElement_total amf0 (l[i]))
      rw [pCF_step amf0 l i _ hlt hget, hsub, IHk (i + 1) (by omega),
        List.drop_eq_getElem_cons hlt]
      show _ = some (childBlock amf0 l[i] ++ childBlocks amf0 (l.drop (i + 1)))
      rw [childBlock, hsub]
      simp
    · rw [pCF_stop amf0 l i hlt, List.drop_eq_nil_of_le (by omega)]
      rfl


/-- Rendering an `Object` element: the name label, then one block per
child in the children's order, then the class-definition block. -/
lemma pE_object (amf0 : Bool) (name : Str) (children : List Element)
    (cd : Option ClassDefinition) :
    processElement amf0 (.mk name (.Object children cd)) =
      some (.label name :: (childBlocks amf0 children ++ classDefOut cd)) := by
  have hkids := pCF_drop amf0 children children.length 0 (by omega)
  rw [List.drop_zero] at hkids
  cases cd with
  | none => simp [processElement, hkids, classDefOut]
  | some c => simp [processElement, hkids, classDefOut]

/-- Every rendering starts with the element's name label. -/
lemma pE_starts (amf0 : Bool) (e : Element) :
    ∃ t, processElement amf0 e = some (.label e.name :: t) := by
  cases e with
  | mk name value =>
    cases value with
    | Object children cd =>
      exact ⟨_, pE_object amf0 name children cd⟩
    | _ =>
      cases amf0 <;> simp [processElement, Element.name]


lemma foldl_quotedSeg (props : List Str) :
    ∀ acc : Str,
      props.foldl (fun a p => a ++ ('\x22' :: p ++ ['\x22', ',', ' '])) acc =
        acc ++ (props.map quotedSeg).flatten := by
  induction props with
  | nil => intro acc; simp
  | cons p rest IH =>
    intro acc
    rw [List.foldl_cons, IH]
    simp [quotedSeg]

lemma utf8Len_eq_length (s : Str) (h : ∀ c ∈ s, c.utf8Size = 1) :
    utf8Len s = s.length := by
  induction s with
  | nil => rfl
  | cons c cs IH =>
    have hc : c.utf8Size = 1 := h c (List.mem_cons_self c cs)
    have hcs := IH (fun x hx => h x (List.mem_cons_of_mem c hx))
    simp [utf8Len] at hcs ⊢
    omega

lemma quotedSeg_split (p : Str) :
    quotedSeg p = ('\x22' :: p ++ ['\x22']) ++ [',', ' '] := by
  simp [quotedSeg]

lemma flatten_quoted_length_ge (p : Str) (rest : List Str) :
    4 ≤ (((p :: rest).map quotedSeg).flatten).length := by
  simp [quotedSeg]
  omega

lemma take_flatten_quoted :
    ∀ (rest : List Str) (p : Str),
      ((((p :: rest).map quotedSeg).flatten).take
          ((((p :: rest).map quotedSeg).flatten).length - 2)) =
        specJoin (p :: rest) := by
  intro rest
  induction rest with
  | nil =>
    intro p
    have h1 : (([p].map quotedSeg).flatten) = ('\x22' :: p ++ ['\x22']) ++ [',', ' '] := by
      simp [quotedSeg_split p]
    rw [h1]
    have h2 : (('\x22' :: p ++ ['\x22']) ++ [',', ' ']).length - 2 =
        ('\x22' :: p ++ ['\x22']).length := by
      simp
    rw [h2, List.take_left]
    simp [specJoin]
  | cons r rs IH =>
    intro p
    have h1 : (((p :: r :: rs).map quotedSeg).flatten) =
        quotedSeg p ++ (((r :: rs).map quotedSeg).flatten) := by
      simp
    have hge := flatten_quoted_length_ge r rs
    have h2 : (quotedSeg p ++ (((r :: rs).map quotedSeg).flatten)).length - 2 =
        (quotedSeg p).length + ((((r :: rs).map quotedSeg).flatten).length - 2) := by
      simp at hge ⊢
      omega
    rw [h1, h2, List.take_append, IH r]
    simp [specJoin, quotedSeg]

lemma childBlocks_append (amf0 : Bool) (l1 l2 : List Element) :
    childBlocks amf0 (l1 ++ l2) = childBlocks amf0 l1 ++ childBlocks amf0 l2 := by
  induction l1 with
  | nil => simp [childBlocks]
  | cons c cs IH => simp [childBlocks, IH, List.append_assoc]

/-! ### Claims -/

/-- C1: For the document `{header: {name: "test", format_version: V3,
length: 12}, body: [{name: "x", value: Integer(5)}]}`, the claim says the
element renders through the version-specific pass only, with no fallback
text.  Evaluating the code: the central panel renders the header rows and
then the element as its name label, the pass-one catch-all's literal
fallback text, and only then the integer value — the fallback IS emitted
once before the integer. -/
theorem claim_c1_v3_integer_fallback_before_value :
    renderCentral ⟨⟨12, "test".toList, .AMF3⟩, [.mk ['x'] (.Integer ⟨5⟩)]⟩ =
      [.heading headingHeaderStr,
       .hBegin, .label nameLabelStr, .textEdit "test".toList, .hEnd,
       .hBegin, .label versionLabelStr, .code (.ver .AMF3), .hEnd,
       .hBegin, .label lengthLabelStr, .code (.nat 12), .hEnd,
       .heading headingBodyStr,
       .label ['x'], .code (.str couldntFindStr), .code (.int ⟨5⟩)] := by
  simp [renderCentral, bodyRender, processElement]

/-- C2: The claim says the fallback text is shown at most once per element,
with pass one only setting a flag and rendering nothing.  Evaluating the
code at a V3 element whose value matches neither pass (a `Date`): the
pass-one catch-all emits the fallback AND sets the flag, and the final step
emits it a second time — two fallbacks for one element. -/
theorem claim_c2_v3_unknown_double_fallback :
    processElement false (.mk ['d'] (.Date ⟨0⟩ none)) =
      some [.label ['d'], .code (.str couldntFindStr), .code (.str couldntFindStr)] ∧
    [RItem.label ['d'], .code (.str couldntFindStr),
      .code (.str couldntFindStr)].count (.code (.str couldntFindStr)) = 2 := by
  constructor
  · simp [processElement]
  · decide

/-- C3 counterexample: for the single property string `"é"` (one non-ASCII
character), the byte length of the built string exceeds its character
count, so the char-indexed `substring(0, len - 2)` removes only the
trailing space and the result keeps a trailing comma: `["é",]`, not
`["é"]`. -/
theorem claim_c3_counterexample :
    buildStaticProps [[Char.ofNat 233]] =
      ['[', '\x22', Char.ofNat 233, '\x22', ',', ']'] ∧
    buildStaticProps [[Char.ofNat 233]] ≠ specStaticPropsList [[Char.ofNat 233]] := by
  constructor
  · decide
  · decide

/-- C3 (amended): for property strings made of single-byte (ASCII)
characters — where the byte length the code measures coincides with the
character count the `substring` call consumes — the static-properties list
renders as exactly `[]` when empty and as the bracketed, double-quoted,
comma-space-separated list with no trailing separator when non-empty. -/
theorem claim_c3_static_props_ascii (props : List Str)
    (h : ∀ p ∈ props, ∀ c ∈ p, c.utf8Size = 1) :
    buildStaticProps props = specStaticPropsList props := by
  cases props with
  | nil => decide
  | cons p rest =>
    have hfold := foldl_quotedSeg (p :: rest) ['[']
    have hB4 := flatten_quoted_length_ge p rest
    set B := (((p :: rest).map quotedSeg).flatten) with hBdef
    have hascii : ∀ c ∈ ('[' :: B), c.utf8Size = 1 := by
      intro c hc
      rcases List.mem_cons.mp hc with hc | hc
      · subst hc; decide
      · rw [hBdef] at hc
        obtain ⟨seg, hseg, hcseg⟩ := List.mem_flatten.mp hc
        obtain ⟨q, hq, rfl⟩ := List.mem_map.mp hseg
        rcases List.mem_cons.mp hcseg with hc2 | hc2
        · subst hc2; decide
        · rcases List.mem_append.mp hc2 with hc3 | hc3
          · exact h q hq c hc3
          · fin_cases hc3 <;> decide
    have hulen : utf8Len ('[' :: B) = B.length + 1 := by
      rw [utf8Len_eq_length _ hascii]
      simp
    show (let s := List.foldl _ ['['] (p :: rest)
          let len := utf8Len s
          let s2 := if len ≠ 1 then rustSubstring s 0 (len - 2) else s
          s2 ++ [']']) = _
    rw [hfold]
    show (if utf8Len ('[' :: B) ≠ 1 then
            rustSubstring ('[' :: B) 0 (utf8Len ('[' :: B) - 2)
          else ('[' :: B)) ++ [']'] = _
    rw [hulen, if_pos (by omega)]
    have htake : rustSubstring ('[' :: B) 0 (B.length + 1 - 2) =
        '[' :: B.take (B.length - 2) := by
      have h3 : B.length + 1 - 2 = (B.length - 2) + 1 := by omega
      simp [rustSubstring, h3]
    rw [htake, hBdef, take_flatten_quoted rest p]
    rfl

/-- C3 witness: two one-character ASCII properties render as
`["a", "b"]`. -/
theorem claim_c3_static_props_ascii_witness :
    (∀ p ∈ [['a'], ['b']], ∀ c ∈ p, c.utf8Size = 1) ∧
      buildStaticProps [['a'], ['b']] = specStaticPropsList [['a'], ['b']] :=
  ⟨by decide, claim_c3_static_props_ascii [['a'], ['b']] (by decide)⟩

/-- C4: For every element whose value is Number, Bool, String, Null,
Undefined, XML or Unsupported, the rendered output of `process_element` is
identical under format V0 (`amf0 = true`) and V3 (`amf0 = false`). -/
theorem claim_c4_version_invariant_scalars (name : Str) (v : Value)
    (h : isVersionInvariantScalar v = true) :
    processElement true (.mk name v) = processElement false (.mk name v) := by
  cases v <;> simp_all [isVersionInvariantScalar, processElement]

/-- C4 witness: instantiated at a `Null` value. -/
theorem claim_c4_version_invariant_scalars_witness :
    isVersionInvariantScalar .Null = true ∧
      processElement true (.mk ['n'] .Null) = processElement false (.mk ['n'] .Null) :=
  ⟨rfl, claim_c4_version_invariant_scalars ['n'] .Null rfl⟩

/-- C5: Under format V0 (`amf0 = true`), every value variant outside the
common set renders as exactly the name label followed by the single
pass-one fallback text; the version-specific pass is never reached (even
`Integer`, which that pass would match, renders no integer). -/
theorem claim_c5_v0_skips_second_pass (name : Str) (v : Value)
    (h : isCommonHandled v = false) :
    processElement true (.mk name v) =
      some [.label name, .code (.str couldntFindStr)] := by
  cases v <;> simp_all [isCommonHandled, processElement]

/-- C5 witness: instantiated at an `Integer` value under V0. -/
theorem claim_c5_v0_skips_second_pass_witness :
    isCommonHandled (.Integer ⟨5⟩) = false ∧
      processElement true (.mk ['x'] (.Integer ⟨5⟩)) =
        some [.label ['x'], .code (.str couldntFindStr)] :=
  ⟨rfl, claim_c5_v0_skips_second_pass ['x'] (.Integer ⟨5⟩) rfl⟩

/-- C6: For every `Object` value, the rendering is the element's name label
followed by one block per child — a horizontal group with a 10-point
indent, the child's name label and the recursive rendering of that child —
in exactly the children's (decoder-supplied) order, and then the
class-definition block. -/
theorem claim_c6_object_children_in_order (amf0 : Bool) (name : Str)
    (children : List Element) (cd : Option ClassDefinition) :
    processElement amf0 (.mk name (.Object children cd)) =
      some (.label name :: (childBlocks amf0 children ++ classDefOut cd)) :=
  pE_object amf0 name children cd

/-- C9: The tree renderer is total: `process_element` returns a rendering
for every element — the child indexing, the guarded class-definition
unwrap, and the recursion never fail, for every `Value` variant. -/
theorem claim_c9_renderer_total (amf0 : Bool) (e : Element) :
    ∃ out, processElement amf0 e = some out :=
  Option.isSome_iff_exists.mp (processElement_total amf0 e)

/-- C10: For every `Object` value, each child's name appears twice in
direct succession: the parent's per-child loop labels the child's name
immediately before the recursive `process_element` call, and that call
itself begins by labelling the same name. -/
theorem claim_c10_child_name_rendered_twice (amf0 : Bool) (name : Str)
    (children : List Element) (cd : Option ClassDefinition) (c : Element)
    (h : c ∈ children) :
    ∃ pre rest, processElement amf0 (.mk name (.Object children cd)) =
      some (pre ++ (.label c.name :: .label c.name :: rest)) := by
  obtain ⟨l1, l2, rfl⟩ := List.append_of_mem h
  obtain ⟨t, ht⟩ := pE_starts amf0 c
  refine ⟨.label name :: (childBlocks amf0 l1 ++ [.hBegin, .space 10]),
    t ++ [.hEnd] ++ (childBlocks amf0 l2 ++ classDefOut cd), ?_⟩
  rw [pE_object, childBlocks_append]
  show some (_ :: _) = some (_ :: _)
  congr 1
  simp [childBlocks, childBlock, ht, List.append_assoc]

/-- C10 witness: a singleton object child named `y`. -/
theorem claim_c10_child_name_rendered_twice_witness :
    ∃ pre rest, processElement false (.mk ['o'] (.Object [.mk ['y'] .Null] none)) =
      some (pre ++ (.label ['y'] :: .label ['y'] :: rest)) :=
  claim_c10_child_name_rendered_twice false ['o'] [.mk ['y'] .Null] none
    (.mk ['y'] .Null) (List.mem_singleton.mpr rfl)


/-- C7: On every frame the update loop drains the whole FIFO queue before
rendering: when every queued `FileOpen` decodes, the held document after
the drain is the decode of the LAST queued message's file
(last-processed-wins), and the frame renders that document. -/
theorem claim_c7_drain_fifo_last_wins (openRead : Str → Option Bytes)
    (parse : Bytes → Option (Bytes × Lso)) (queue : List Message) (s : Lso)
    (p : Str)
    (hall : ∀ m ∈ queue, (msgDecodes openRead parse m).isSome)
    (hlast : queue.getLast? = some (.FileOpen p)) :
    ∃ doc, msgDecodes openRead parse (.FileOpen p) = some doc ∧
      appUpdate openRead parse queue s = some (doc, renderCentral doc) := by
  revert hall hlast s
  induction queue with
  | nil =>
    intro s hall hlast
    simp at hlast
  | cons m rest IH =>
    intro s hall hlast
    obtain ⟨doc0, hdoc0⟩ :=
      Option.isSome_iff_exists.mp (hall m (List.mem_cons_self m rest))
    have hstep : appUpdate openRead parse (m :: rest) s =
        appUpdate openRead parse rest doc0 := by
      simp [appUpdate, drainMessages, hdoc0]
    cases rest with
    | nil =>
      simp only [List.getLast?_singleton, Option.some.injEq] at hlast
      subst hlast
      exact ⟨doc0, hdoc0, by simp [appUpdate, drainMessages, hdoc0]⟩
    | cons m2 rest2 =>
      rw [List.getLast?_cons_cons] at hlast
      obtain ⟨doc, h1, h2⟩ :=
        IH doc0 (fun m' hm' => hall m' (List.mem_cons_of_mem m hm')) hlast
      exact ⟨doc, h1, hstep.trans h2⟩

/-- C7 witness: two queued opens; the held document is the decode of the
second. -/
theorem claim_c7_drain_fifo_last_wins_witness :
    ∃ doc, msgDecodes openReadW parseW (.FileOpen ['b']) = some doc ∧
      appUpdate openReadW parseW [.FileOpen ['a'], .FileOpen ['b']] defaultLso =
        some (doc, renderCentral doc) :=
  claim_c7_drain_fifo_last_wins openReadW parseW
    [.FileOpen ['a'], .FileOpen ['b']] defaultLso ['b']
    (by intro m hm; cases m; exact rfl) rfl

/-- C8: Handling a drained `FileOpen` whose file cannot be opened, or whose
bytes fail to decode, is an unconditional panic (`none`); on success the
held document is replaced by the decoded one in a single assignment — the
drain continues from exactly the decoded document, never a partial state. -/
theorem claim_c8_failure_panics_success_replaces (openRead : Str → Option Bytes)
    (parse : Bytes → Option (Bytes × Lso)) (p : Str) (s : Lso)
    (rest : List Message) :
    (openRead p = none →
      drainMessages openRead parse (.FileOpen p :: rest) s = none) ∧
    (∀ data, openRead p = some data → parse data = none →
      drainMessages openRead parse (.FileOpen p :: rest) s = none) ∧
    (∀ data r, openRead p = some data → parse data = some r →
      drainMessages openRead parse (.FileOpen p :: rest) s =
        drainMessages openRead parse rest r.2) := by
  refine ⟨?_, ?_, ?_⟩
  · intro h
    simp [drainMessages, msgDecodes, h]
  · intro data h1 h2
    simp [drainMessages, msgDecodes, h1, h2]
  · intro data r h1 h2
    simp [drainMessages, msgDecodes, h1, h2]

/-- C8 witness: a failing open panics, a failing decode panics, and a
successful decode replaces the held document wholesale. -/
theorem claim_c8_failure_panics_success_replaces_witness :
    drainMessages openReadFail parseW [.FileOpen ['a']] defaultLso = none ∧
    drainMessages openReadW parseFail [.FileOpen ['a']] defaultLso = none ∧
    drainMessages openReadW parseW [.FileOpen ['a']] defaultLso =
      drainMessages openReadW parseW [] sampleDoc :=
  ⟨(claim_c8_failure_panics_success_replaces openReadFail parseW ['a']
      defaultLso []).1 rfl,
   (claim_c8_failure_panics_success_replaces openReadW parseFail ['a']
      defaultLso []).2.1 [] rfl rfl,
   (claim_c8_failure_panics_success_replaces openReadW parseW ['a']
      defaultLso []).2.2 [] ([], sampleDoc) rfl rfl⟩

end SolEditor
